import Mathlib

/-!
Verification of the Intel HEX record codec, segment scanner and segment
collection utilities (package `intelhex`).

The Go source is shallowly embedded: machine integers become `Nat` with
explicit `% 2 ^ w` at the points where the source performs a narrowing
conversion or where a machine addition could wrap; byte slices become
`List Nat`; fallible operations return `Except`/`Option`; the mutation of a
record or scanner by a method becomes explicit state passing.
-/

namespace IntelHex

/-! ## Record codec -/

/-- Record type constants (wire byte values), from the source's const block. -/
def RecordTypeData : Nat := 0x00

def RecordTypeEOF : Nat := 0x01

def RecordTypeExtSegAddr : Nat := 0x02

def RecordTypeStartSegAddr : Nat := 0x03

def RecordTypeExtLinAddr : Nat := 0x04

def RecordTypeStartLinAddr : Nat := 0x05

def NumRecordTypes : Nat := 0x06

/-- `StartCode` is the byte each record line must start with (`':'` = 58). -/
def StartCode : Nat := 58

/-- The two's complement checksum: sum all bytes into an unsigned (64-bit)
accumulator `sum` and return `byte(^sum + 1)`, i.e. the low byte of the
two's complement negation of the sum. -/
def Checksum (data : List Nat) : Nat :=
  (2 ^ 64 - data.sum % 2 ^ 64) % 256

/-- A decoded record.  In Go, `ByteCount` and `RecordType` are `uint8`,
`Address` is `uint16`, `Data` is a byte slice and `Checksum` is `uint8`;
the corresponding bounds are collected in `Record.WF`. -/
structure Record where
  byteCount : Nat
  address : Nat
  recordType : Nat
  data : List Nat
  checksum : Nat
deriving DecidableEq

/-- The machine-integer bounds implied by the Go field types of `Record`. -/
def Record.WF (r : Record) : Prop :=
  r.byteCount < 256 ∧ r.address < 65536 ∧ r.recordType < 256 ∧
    (∀ b ∈ r.data, b < 256) ∧ r.checksum < 256

instance (r : Record) : Decidable r.WF := by
  unfold Record.WF; infer_instance

/-- Error kinds of the codec and the scanner's record decoding.  The Go code
uses dedicated error types for checksum and record-type errors and
`fmt.Errorf` strings for the rest; each distinct failure site gets its own
constructor here. -/
inductive RecordErr where
  | byteCountMismatch (byteCount dataLength : Nat)
  | extSegAddrByteCount (byteCount : Nat)
  | extLinAddrByteCount (byteCount : Nat)
  | invalidRecordType (recordType : Nat)
  | decodeByteCount
  | decodeAddress
  | decodeRecordType
  | decodeData
  | decodeChecksum
  | trailingBytes (n : Nat)
  | checksumMismatch (expected calculated : Nat)
deriving DecidableEq

/-- The generic (`fmt.Errorf`-wrapped) field-underflow decode errors, as
opposed to the distinguishable invalid-record-type and checksum kinds. -/
def RecordErr.isUnderflow : RecordErr → Bool
  | .decodeByteCount | .decodeAddress | .decodeRecordType
  | .decodeData | .decodeChecksum => true
  | _ => false

/-- The byte-count / address / record-type / data bytes which
`MarshalBinary` writes to its buffer before computing the checksum:
`binary.Write` of the `uint8` byte count, the big-endian `uint16` address
(bytes `byte(addr >> 8)` and `byte(addr)`), the `uint8` record type, and the
raw data bytes. -/
def marshalBody (x : Record) : List Nat :=
  x.byteCount :: (x.address >>> 8) % 256 :: x.address % 256 :: x.recordType :: x.data

/-- Result of `Record.MarshalBinary`: the record as left by the call (the
method mutates the receiver's checksum field), the returned byte slice, and
the returned error. -/
structure MarshalResult where
  record : Record
  data : List Nat
  err : Option RecordErr
deriving DecidableEq

/-- `Record.MarshalBinary` encodes a record into a byte slice and rewrites
the record's checksum field.

Control flow of the source, in order: a byte-count/data-length mismatch
assigns `byteCountMismatchError` to `err` but does *not* return, and the
assignment is subsequently overwritten by the `binary.Write` calls (which
cannot fail on a `bytes.Buffer`), so that error is never returned; the two
extension-record byte-count checks and the record-type bound check return
early with `data` still nil and the record unmodified; otherwise the body
bytes are written, the checksum is computed over them and stored in the
record, and the body plus checksum byte is returned with a nil error. -/
def Record.MarshalBinary (x : Record) : MarshalResult :=
  if x.recordType = RecordTypeExtSegAddr ∧ x.byteCount ≠ 2 then
    ⟨x, [], some (.extSegAddrByteCount x.byteCount)⟩
  else if x.recordType = RecordTypeExtLinAddr ∧ x.byteCount ≠ 2 then
    ⟨x, [], some (.extLinAddrByteCount x.byteCount)⟩
  else if NumRecordTypes ≤ x.recordType then
    ⟨x, [], some (.invalidRecordType x.recordType)⟩
  else
    ⟨{ x with checksum := Checksum (marshalBody x) },
      marshalBody x ++ [Checksum (marshalBody x)], none⟩

/-- `NewRecord` builds a record from a type, an address and data: the byte
count is `byte(len(data))` (hence truncated mod 256), the data is copied,
and `MarshalBinary` is invoked once to fix the checksum (its return values
are discarded). -/
def NewRecord (recordType : Nat) (address : Nat) (data : List Nat) : Record :=
  (Record.MarshalBinary
    { byteCount := data.length % 256, address := address,
      recordType := recordType, data := data, checksum := 0 }).record

/-- The precomputed EOF terminator record. -/
def EOFRecord : Record := NewRecord RecordTypeEOF 0 []

/-- `Record.UnmarshalBinary` decodes a record from raw bytes.  It reads in
order: 1-byte count, 2-byte big-endian address (`uint16(b0)<<8 | uint16(b1)`),
1-byte type (failing on type ≥ 6, then on an extension record whose byte
count is not 2), `byteCount` data bytes, 1-byte checksum; any leftover bytes
are an error, and finally the checksum is recomputed over all input bytes
except the last and compared with the stored one. -/
def Record.UnmarshalBinary (data : List Nat) : Except RecordErr Record :=
  match data with
  | bc :: a1 :: a2 :: t :: rest =>
    if NumRecordTypes ≤ t then .error (.invalidRecordType t)
    else if t = RecordTypeExtSegAddr ∧ bc ≠ 2 then .error (.extSegAddrByteCount bc)
    else if t = RecordTypeExtLinAddr ∧ bc ≠ 2 then .error (.extLinAddrByteCount bc)
    else if rest.length < bc then .error .decodeData
    else
      match rest.drop bc with
      | [] => .error .decodeChecksum
      | ck :: rest2 =>
        if rest2.length ≠ 0 then .error (.trailingBytes rest2.length)
        else
          if Checksum data.dropLast ≠ ck then
            .error (.checksumMismatch ck (Checksum data.dropLast))
          else
            .ok { byteCount := bc, address := (a1 <<< 8) ||| a2,
                  recordType := t, data := rest.take bc, checksum := ck }
  | [] => .error .decodeByteCount
  | [_] => .error .decodeAddress
  | [_, _] => .error .decodeAddress
  | [_, _, _] => .error .decodeRecordType

/-- Whether a decode succeeded. -/
def decodeOk : Except RecordErr Record → Bool
  | .ok _ => true
  | .error _ => false

/-- Whether a decode failed with one of the generic field-underflow errors. -/
def decodeUnderflow : Except RecordErr Record → Bool
  | .ok _ => false
  | .error e => e.isUnderflow

/-! ## Hex text layer (collaborator `encoding/hex`) -/

/-- `fromHexChar`: value of one hex digit character, case-insensitive. -/
def hexDigitValue (c : Nat) : Option Nat :=
  if 48 ≤ c ∧ c ≤ 57 then some (c - 48)
  else if 97 ≤ c ∧ c ≤ 102 then some (c - 97 + 10)
  else if 65 ≤ c ∧ c ≤ 70 then some (c - 65 + 10)
  else none

/-- `hex.Decode`: pairs of digits become bytes `(a <<< 4) ||| b`; an odd
trailing digit or a non-digit character is an error (`none`). -/
def hexDecode : List Nat → Option (List Nat)
  | [] => some []
  | [_] => none
  | c1 :: c2 :: rest =>
    match hexDigitValue c1, hexDigitValue c2, hexDecode rest with
    | some d1, some d2, some bs => some (((d1 <<< 4) ||| d2) :: bs)
    | _, _, _ => none

/-- Uppercase hex digit character for a nibble, as produced by
`strings.ToUpper(hex.EncodeToString(..))`. -/
def hexChar (d : Nat) : Nat :=
  if d < 10 then 48 + d else 65 + (d - 10)

/-- Uppercase hex encoding of a byte sequence: `hex.Encode` emits the
digits of `b >>> 4` and `b &&& 0x0f` for each byte. -/
def upperHexEncode : List Nat → List Nat
  | [] => []
  | b :: rest => hexChar (b >>> 4) :: hexChar (b &&& 15) :: upperHexEncode rest

/-! ## Segment scanner -/

/-- A resolved, absolutely addressed chunk of data. -/
structure Segment where
  address : Nat
  data : List Nat
deriving DecidableEq

/-- Scanner-level error kinds.  `recordErr` wraps a codec error;
`unexpectedEOF` is the "line source exhausted without an EOF record"
error; the underlying line source itself is modelled as a pure list and
hence never fails on its own. -/
inductive ScanErr where
  | badStartCode (c : Nat)
  | badHex
  | recordErr (e : RecordErr)
  | unexpectedEOF
deriving DecidableEq

/-- Scanner state: the remaining lines of the underlying `bufio.Scanner`,
the two address-extension bases, the most recently emitted segment, and the
sticky first error. -/
structure ScanState where
  lines : List (List Nat)
  extendedSegmentedAddressBase : Nat
  extendedLinearAddressBase : Nat
  segment : Segment
  firstErr : Option ScanErr
deriving DecidableEq

/-- `NewScanner`: fresh scanner over a line source; both bases, the current
segment and the error start at their zero values. -/
def NewScanner (lines : List (List Nat)) : ScanState :=
  ⟨lines, 0, 0, ⟨0, []⟩, none⟩

/-- `Scanner.Err`: the sticky first error if set; the underlying
`bufio.Scanner` error otherwise, which for a pure line source is nil. -/
def ScanState.Err (s : ScanState) : Option ScanErr :=
  s.firstErr

/-- Outcome of processing one line inside `Scanner.Scan`'s loop. -/
inductive LineOutcome where
  | skip
  | fatal (e : ScanErr)
  | emit (seg : Segment)
  | stop
  | next (segBase linBase : Nat)
deriving DecidableEq

/-- The body of `Scanner.Scan`'s per-line loop, given the current
address-extension bases: skip blank lines; require the start code; hex-decode
the remainder; decode the record; then dispatch on the record type.

For a Data record the effective base is computed by
`addressBase := 0; if segBase != 0 { addressBase = segBase };
if linBase != 0 { addressBase = linBase }` (so the linear base wins if both
are nonzero), the segment address is the wrapping `uint32` sum
`addressBase + uint32(record.Address)`, and the segment data is a copy of the
record data.  Extension records set one base from
`(data[0] <<< 8 ||| data[1])` shifted, clearing the other; an EOF record
stops the scan with no error; start-address records fall through the
switch. -/
def lineStep (line : List Nat) (segBase linBase : Nat) : LineOutcome :=
  match line with
  | [] => .skip
  | c :: hx =>
    if c ≠ StartCode then .fatal (.badStartCode c)
    else
      match hexDecode hx with
      | none => .fatal .badHex
      | some bytes =>
        match Record.UnmarshalBinary bytes with
        | .error e => .fatal (.recordErr e)
        | .ok record =>
          if record.recordType = RecordTypeData then
            .emit { address := ((if linBase ≠ 0 then linBase
                                 else if segBase ≠ 0 then segBase else 0)
                                + record.address) % 2 ^ 32,
                    data := record.data }
          else if record.recordType = RecordTypeEOF then .stop
          else if record.recordType = RecordTypeExtSegAddr then
            .next ((((record.data.getD 0 0) <<< 8) ||| record.data.getD 1 0) <<< 4) 0
          else if record.recordType = RecordTypeExtLinAddr then
            .next 0 ((((record.data.getD 0 0) <<< 8) ||| record.data.getD 1 0) <<< 16)
          else .next segBase linBase

/-- The `for s.scanner.Scan()` loop of `Scanner.Scan`, which consumes lines
until a line yields a segment, an error, the EOF record, or the source is
exhausted (in which case the "unexpected EOF" error is stored). -/
def scanLoop : List (List Nat) → Nat → Nat → Segment → Bool × ScanState
  | [], segBase, linBase, seg =>
    (false, ⟨[], segBase, linBase, seg, some .unexpectedEOF⟩)
  | line :: rest, segBase, linBase, seg =>
    match lineStep line segBase linBase with
    | .skip => scanLoop rest segBase linBase seg
    | .fatal e => (false, ⟨rest, segBase, linBase, seg, some e⟩)
    | .emit s => (true, ⟨rest, segBase, linBase, s, none⟩)
    | .stop => (false, ⟨rest, segBase, linBase, seg, none⟩)
    | .next segBase' linBase' => scanLoop rest segBase' linBase' seg

/-- `Scanner.Scan`: return false immediately on a sticky error, otherwise
run the line loop. -/
def scan (s : ScanState) : Bool × ScanState :=
  match s.firstErr with
  | some _ => (false, s)
  | none =>
    scanLoop s.lines s.extendedSegmentedAddressBase s.extendedLinearAddressBase s.segment

/-- The standard driver `for s.Scan() { segments = append(segments, s.Segment()) }`:
advance until the first false return, collecting the emitted segments.  This
is `scanLoop` fused with that loop; `runScan_step` below proves it equal to
iterating `scan`. -/
def runLoop : List (List Nat) → Nat → Nat → Segment → List Segment × ScanState
  | [], segBase, linBase, seg =>
    ([], ⟨[], segBase, linBase, seg, some .unexpectedEOF⟩)
  | line :: rest, segBase, linBase, seg =>
    match lineStep line segBase linBase with
    | .skip => runLoop rest segBase linBase seg
    | .fatal e => ([], ⟨rest, segBase, linBase, seg, some e⟩)
    | .emit s => ((runLoop rest segBase linBase s).1.cons s, (runLoop rest segBase linBase s).2)
    | .stop => ([], ⟨rest, segBase, linBase, seg, none⟩)
    | .next segBase' linBase' => runLoop rest segBase' linBase' seg

/-- Drive a scanner to completion from an arbitrary state. -/
def runScan (s : ScanState) : List Segment × ScanState :=
  match s.firstErr with
  | some _ => ([], s)
  | none =>
    runLoop s.lines s.extendedSegmentedAddressBase s.extendedLinearAddressBase s.segment

/-- The scanner states reachable from a freshly constructed scanner (over any
input) by any sequence of `Scan` calls. -/
inductive Reachable : ScanState → Prop where
  | init (lines : List (List Nat)) : Reachable (NewScanner lines)
  | step (s : ScanState) : Reachable s → Reachable (scan s).2

/-! ## Segment collection utilities -/

/-- `SegmentSlice` is a sequence of segments. -/
def SegmentSlice : Type := List Segment

/-- One line of `SegmentSlice.Write`'s output for a freshly built record:
the start code followed by the uppercase hex encoding of the marshalled
bytes (the trailing newline is the line separator and is represented by the
list structure).  Returns the marshal error, if any, as `Write` does. -/
def recordLine (recordType address : Nat) (data : List Nat) :
    Except RecordErr (List Nat) :=
  match (NewRecord recordType address data).MarshalBinary with
  | ⟨_, _, some e⟩ => .error e
  | ⟨_, d, none⟩ => .ok (StartCode :: upperHexEncode d)

/-- The loop of `SegmentSlice.Write`, carrying `extendedLinearAddressBase`
(initially 0): whenever a segment's `address >>> 16` differs from the
carried base, first emit an `ExtLinAddr` record with data
`[byte(base >> 8), byte(base)]`; then emit the Data record addressed by
`uint16(seg.Address & 0xFFFF)`; after all segments, emit the EOF record. -/
def writeSegments : List Segment → Nat → Except RecordErr (List (List Nat))
  | [], _ =>
    match EOFRecord.MarshalBinary with
    | ⟨_, _, some e⟩ => .error e
    | ⟨_, d, none⟩ => .ok [StartCode :: upperHexEncode d]
  | seg :: rest, extendedLinearAddressBase =>
    if seg.address >>> 16 ≠ extendedLinearAddressBase then
      match recordLine RecordTypeExtLinAddr 0
          [((seg.address >>> 16) >>> 8) % 256, (seg.address >>> 16) % 256] with
      | .error e => .error e
      | .ok extLine =>
        match recordLine RecordTypeData (seg.address &&& 0xFFFF) seg.data with
        | .error e => .error e
        | .ok dataLine =>
          match writeSegments rest (seg.address >>> 16) with
          | .error e => .error e
          | .ok ls => .ok (extLine :: dataLine :: ls)
    else
      match recordLine RecordTypeData (seg.address &&& 0xFFFF) seg.data with
      | .error e => .error e
      | .ok dataLine =>
        match writeSegments rest extendedLinearAddressBase with
        | .error e => .error e
        | .ok ls => .ok (dataLine :: ls)

/-- `SegmentSlice.Write`, modelled as producing the list of output lines. -/
def SegmentSlice.Write (s : SegmentSlice) : Except RecordErr (List (List Nat)) :=
  writeSegments s 0

/-- The lines `SegmentSlice.Write` produces (the writer never actually
fails: every record it builds marshals without error —
`writeSegments_eq_writeLines` below). -/
def writeLines : List Segment → Nat → List (List Nat)
  | [], _ => [StartCode :: upperHexEncode EOFRecord.MarshalBinary.data]
  | seg :: rest, extendedLinearAddressBase =>
    if seg.address >>> 16 ≠ extendedLinearAddressBase then
      (StartCode :: upperHexEncode (NewRecord RecordTypeExtLinAddr 0
          [((seg.address >>> 16) >>> 8) % 256,
           (seg.address >>> 16) % 256]).MarshalBinary.data)
        :: (StartCode :: upperHexEncode (NewRecord RecordTypeData
              (seg.address &&& 0xFFFF) seg.data).MarshalBinary.data)
        :: writeLines rest (seg.address >>> 16)
    else
      (StartCode :: upperHexEncode (NewRecord RecordTypeData
            (seg.address &&& 0xFFFF) seg.data).MarshalBinary.data)
        :: writeLines rest extendedLinearAddressBase

/-- The well-formedness of a segment as a Go value whose data fits in one
record: `address` is a `uint32`, the data bytes are bytes, and the data
length fits the 8-bit byte-count field. -/
def Segment.WFShort (s : Segment) : Prop :=
  s.address < 2 ^ 32 ∧ s.data.length ≤ 255 ∧ ∀ b ∈ s.data, b < 256

instance (s : Segment) : Decidable s.WFShort := by
  unfold Segment.WFShort; infer_instance

/-! ## Arithmetic helper lemmas -/

theorem and_two_pow_sub_one (x k : Nat) : x &&& (2 ^ k - 1) = x % 2 ^ k := by
  apply Nat.eq_of_testBit_eq
  intro i
  rw [Nat.testBit_land, Nat.testBit_mod_two_pow, Nat.testBit_two_pow_sub_one]
  by_cases h : i < k <;> simp [h]

theorem shiftLeft_lor_eq {k b : Nat} (a : Nat) (hb : b < 2 ^ k) :
    (a <<< k) ||| b = a * 2 ^ k + b := by
  apply Nat.eq_of_testBit_eq
  intro i
  rw [Nat.testBit_lor, Nat.testBit_shiftLeft]
  have h2 : a * 2 ^ k + b = 2 ^ k * a + b := by ring
  rw [h2, Nat.testBit_mul_pow_two_add a hb]
  by_cases h : i < k
  · simp [h, Nat.not_le.2 h]
  · have hbf : b.testBit i = false :=
      Nat.testBit_eq_false_of_lt
        (lt_of_lt_of_le hb (Nat.pow_le_pow_right (by norm_num) (Nat.le_of_not_lt h)))
    simp [h, hbf, Nat.le_of_not_lt h]

theorem Checksum_lt (l : List Nat) : Checksum l < 256 :=
  Nat.mod_lt _ (by norm_num)

/-! ## Hex layer lemmas -/

theorem hexDigitValue_lt (c d : Nat) (h : hexDigitValue c = some d) : d < 16 := by
  unfold hexDigitValue at h
  split_ifs at h <;> simp_all <;> omega

set_option maxRecDepth 8000 in
theorem hexDigitValue_hexChar : ∀ d < 16, hexDigitValue (hexChar d) = some d := by
  decide

theorem hexNibbles_recombine (b : Nat) : ((b >>> 4) <<< 4) ||| (b &&& 15) = b := by
  have h15 : (15 : Nat) = 2 ^ 4 - 1 := by norm_num
  rw [h15, and_two_pow_sub_one,
    shiftLeft_lor_eq _ (Nat.mod_lt b (by norm_num)), Nat.shiftRight_eq_div_pow]
  omega

theorem hexDecode_upperHexEncode (bs : List Nat) (h : ∀ b ∈ bs, b < 256) :
    hexDecode (upperHexEncode bs) = some bs := by
  induction bs with
  | nil => rfl
  | cons b rest ih =>
    have hb : b < 256 := h b (List.mem_cons_self b rest)
    have hhi : b >>> 4 < 16 := by
      rw [Nat.shiftRight_eq_div_pow]
      omega
    have hlo : b &&& 15 < 16 := by
      have : (15 : Nat) = 2 ^ 4 - 1 := by norm_num
      rw [this, and_two_pow_sub_one]
      omega
    have hrest : hexDecode (upperHexEncode rest) = some rest :=
      ih (fun x hx => h x (List.mem_cons_of_mem b hx))
    simp only [upperHexEncode, hexDecode, hexDigitValue_hexChar _ hhi,
      hexDigitValue_hexChar _ hlo, hrest, hexNibbles_recombine b]

theorem hexDecode_bytes_lt :
    ∀ (hx bs : List Nat), hexDecode hx = some bs → ∀ b ∈ bs, b < 256
  | [], bs, h => by
    simp only [hexDecode, Option.some.injEq] at h
    subst h
    intro b hb
    cases hb
  | [_], bs, h => by simp [hexDecode] at h
  | c1 :: c2 :: rest, bs, h => by
    simp only [hexDecode] at h
    split at h
    · rename_i d1 d2 bs' h1 h2 h3
      injection h with h
      subst h
      intro b hb
      rcases List.mem_cons.1 hb with rfl | hb
      · have hd1 := hexDigitValue_lt c1 d1 h1
        have hd2 := hexDigitValue_lt c2 d2 h2
        have := shiftLeft_lor_eq (k := 4) d1 (show d2 < 2 ^ 4 by omega)
        omega
      · exact hexDecode_bytes_lt rest bs' h3 b hb
    · cases h

/-! ## Marshal lemmas -/

theorem MarshalBinary_ok (x : Record) (ht : x.recordType < NumRecordTypes)
    (he2 : x.recordType = RecordTypeExtSegAddr → x.byteCount = 2)
    (he4 : x.recordType = RecordTypeExtLinAddr → x.byteCount = 2) :
    x.MarshalBinary =
      ⟨{ x with checksum := Checksum (marshalBody x) },
        marshalBody x ++ [Checksum (marshalBody x)], none⟩ := by
  unfold Record.MarshalBinary
  rw [if_neg, if_neg, if_neg]
  · omega
  · intro hc
    exact hc.2 (he4 hc.1)
  · intro hc
    exact hc.2 (he2 hc.1)

theorem marshalBody_bytes_lt (x : Record) (hbc : x.byteCount < 256)
    (ht : x.recordType < 256) (hd : ∀ b ∈ x.data, b < 256) :
    ∀ b ∈ marshalBody x, b < 256 := by
  intro b hb
  unfold marshalBody at hb
  rcases hb with _ | ⟨_, _ | ⟨_, _ | ⟨_, _ | ⟨_, hmem⟩⟩⟩⟩
  · exact hbc
  · exact Nat.mod_lt _ (by norm_num)
  · exact Nat.mod_lt _ (by norm_num)
  · exact ht
  · exact hd _ hmem

theorem marshal_data_bytes_lt (x : Record) (hbc : x.byteCount < 256)
    (ht : x.recordType < 256) (hd : ∀ b ∈ x.data, b < 256)
    (ht6 : x.recordType < NumRecordTypes)
    (he2 : x.recordType = RecordTypeExtSegAddr → x.byteCount = 2)
    (he4 : x.recordType = RecordTypeExtLinAddr → x.byteCount = 2) :
    ∀ b ∈ x.MarshalBinary.data, b < 256 := by
  rw [MarshalBinary_ok x ht6 he2 he4]
  intro b hb
  rcases List.mem_append.1 hb with hb | hb
  · exact marshalBody_bytes_lt x hbc ht hd b hb
  · rcases List.mem_singleton.1 hb with rfl
    exact Checksum_lt _

/-- Decoding the output of a successful encode recovers the record exactly as
the encode call left it (checksum field rewritten, others untouched). -/
theorem unmarshal_marshal (x : Record) (ht : x.recordType < NumRecordTypes)
    (he2 : x.recordType = RecordTypeExtSegAddr → x.byteCount = 2)
    (he4 : x.recordType = RecordTypeExtLinAddr → x.byteCount = 2)
    (hlen : x.data.length = x.byteCount) (haddr : x.address < 65536) :
    Record.UnmarshalBinary x.MarshalBinary.data = .ok x.MarshalBinary.record := by
  have hdata : x.MarshalBinary.data =
      x.byteCount :: (x.address >>> 8) % 256 :: x.address % 256 :: x.recordType ::
        (x.data ++ [Checksum (marshalBody x)]) := by
    rw [MarshalBinary_ok x ht he2 he4]
    simp [marshalBody]
  have hrec : x.MarshalBinary.record = { x with checksum := Checksum (marshalBody x) } := by
    rw [MarshalBinary_ok x ht he2 he4]
  rw [hdata, hrec]
  simp only [Record.UnmarshalBinary]
  rw [if_neg (by omega), if_neg (fun hc => hc.2 (he2 hc.1)),
    if_neg (fun hc => hc.2 (he4 hc.1)), if_neg (by simp [← hlen])]
  have hdrop : (x.data ++ [Checksum (marshalBody x)]).drop x.byteCount =
      [Checksum (marshalBody x)] := by
    rw [← hlen, List.drop_left]
  have htake : (x.data ++ [Checksum (marshalBody x)]).take x.byteCount = x.data := by
    rw [← hlen, List.take_left]
  rw [hdrop]
  have hdropLast : (x.byteCount :: (x.address >>> 8) % 256 :: x.address % 256 ::
      x.recordType :: (x.data ++ [Checksum (marshalBody x)])).dropLast =
        marshalBody x := by
    have : x.byteCount :: (x.address >>> 8) % 256 :: x.address % 256 ::
        x.recordType :: (x.data ++ [Checksum (marshalBody x)]) =
          marshalBody x ++ [Checksum (marshalBody x)] := by
      simp [marshalBody]
    rw [this, List.dropLast_concat]
  have haddr' : (((x.address >>> 8) % 256) <<< 8) ||| x.address % 256 = x.address := by
    have hlo : x.address % 256 < 2 ^ 8 := Nat.mod_lt _ (by norm_num)
    rw [shiftLeft_lor_eq _ hlo]
    have hhi : x.address >>> 8 = x.address / 256 := by
      rw [Nat.shiftRight_eq_div_pow]
    have : x.address / 256 < 256 := by omega
    rw [hhi, Nat.mod_eq_of_lt this]
    omega
  simp [hdropLast, htake, haddr']

/-! ## Unmarshal success characterization -/

theorem unmarshal_ok_shape (l : List Nat) (r : Record)
    (h : Record.UnmarshalBinary l = .ok r) :
    l.length = 5 + r.byteCount ∧ l.head? = some r.byteCount ∧
      r.checksum = Checksum l.dropLast ∧ l.getLast? = some r.checksum := by
  match l with
  | [] => simp [Record.UnmarshalBinary] at h
  | [_] => simp [Record.UnmarshalBinary] at h
  | [_, _] => simp [Record.UnmarshalBinary] at h
  | [_, _, _] => simp [Record.UnmarshalBinary] at h
  | bc :: a1 :: a2 :: t :: rest =>
    simp only [Record.UnmarshalBinary] at h
    split_ifs at h with h1 h2 h3 h4
    split at h
    · cases h
    · rename_i ck rest2 hdrop
      split_ifs at h with h5 h6
      injection h with h
      subst h
      have hlen2 : (rest.drop bc).length = rest.length - bc := List.length_drop bc rest
      rw [hdrop] at hlen2
      have hrest2 : rest2 = [] := List.length_eq_zero.1 (by omega)
      subst hrest2
      have hrlen : rest.length = bc + 1 := by
        simp at hlen2
        omega
      have hsplit : rest = rest.take bc ++ [ck] := by
        conv_lhs => rw [← List.take_append_drop bc rest]
        rw [hdrop]
      have h6' : Checksum (bc :: a1 :: a2 :: t :: rest).dropLast = ck := by
        simpa using h6
      refine ⟨by simp; omega, rfl, h6'.symm, ?_⟩
      have : bc :: a1 :: a2 :: t :: rest =
          (bc :: a1 :: a2 :: t :: rest.take bc) ++ [ck] := by
        conv_lhs => rw [hsplit]
        simp
      rw [this, List.getLast?_concat]

theorem unmarshal_invalid_type (b0 b1 b2 t : Nat) (rest : List Nat) (ht : NumRecordTypes ≤ t) :
    Record.UnmarshalBinary (b0 :: b1 :: b2 :: t :: rest) =
      .error (.invalidRecordType t) := by
  simp only [Record.UnmarshalBinary]
  rw [if_pos ht]

/-! ## Claim C1 -/

/-- C1.  For every record whose recordType is a valid type (< 6), whose data
length equals its byteCount, and which, if it is an extension-address record,
has byteCount = 2, encoding with `MarshalBinary` succeeds (nil error) and
decoding the resulting bytes with `UnmarshalBinary` succeeds and recovers a
record with identical byteCount, address, recordType, data and checksum
fields (identical to the record as the encode call left it — `MarshalBinary`
rewrites the checksum field in place). -/
theorem C1_marshal_unmarshal_roundtrip (r : Record) (hwf : r.WF)
    (ht : r.recordType < NumRecordTypes)
    (hlen : r.data.length = r.byteCount)
    (hext : r.recordType = RecordTypeExtSegAddr ∨ r.recordType = RecordTypeExtLinAddr →
      r.byteCount = 2) :
    r.MarshalBinary.err = none ∧
      Record.UnmarshalBinary r.MarshalBinary.data = .ok r.MarshalBinary.record := by
  have he2 : r.recordType = RecordTypeExtSegAddr → r.byteCount = 2 :=
    fun h => hext (Or.inl h)
  have he4 : r.recordType = RecordTypeExtLinAddr → r.byteCount = 2 :=
    fun h => hext (Or.inr h)
  refine ⟨?_, unmarshal_marshal r ht he2 he4 hlen hwf.2.1⟩
  rw [MarshalBinary_ok r ht he2 he4]

theorem C1_witness :
    (Record.mk 2 256 2 [18, 0] 0).WF ∧
      (Record.mk 2 256 2 [18, 0] 0).recordType < NumRecordTypes ∧
      (Record.mk 2 256 2 [18, 0] 0).data.length = (Record.mk 2 256 2 [18, 0] 0).byteCount ∧
      ((Record.mk 2 256 2 [18, 0] 0).MarshalBinary.err = none ∧
        Record.UnmarshalBinary (Record.mk 2 256 2 [18, 0] 0).MarshalBinary.data =
          .ok (Record.mk 2 256 2 [18, 0] 0).MarshalBinary.record) :=
  ⟨by decide, by decide, by decide,
    C1_marshal_unmarshal_roundtrip (Record.mk 2 256 2 [18, 0] 0)
      (by decide) (by decide) (by decide) (fun _ => rfl)⟩

/-! ## Claim C2 -/

/-- C6.  `UnmarshalBinary` is a total function (the embedding is a plain
`Except`-valued function, so it cannot panic) and returns an error on: the
empty input; any input whose record-type byte is ≥ 6; any ExtSegAddr or
ExtLinAddr record whose byte count is not 2; any input shorter or longer than
the `5 + byteCount` bytes its byte-count field declares; and any input whose
checksum byte differs from the two's-complement checksum of the preceding
bytes. -/
theorem C6_unmarshal_error_conditions :
    decodeOk (Record.UnmarshalBinary []) = false ∧
      (∀ b0 b1 b2 t : Nat, ∀ rest : List Nat, NumRecordTypes ≤ t →
        decodeOk (Record.UnmarshalBinary (b0 :: b1 :: b2 :: t :: rest)) = false) ∧
      (∀ b0 b1 b2 t : Nat, ∀ rest : List Nat,
        (t = RecordTypeExtSegAddr ∨ t = RecordTypeExtLinAddr) → b0 ≠ 2 →
        decodeOk (Record.UnmarshalBinary (b0 :: b1 :: b2 :: t :: rest)) = false) ∧
      (∀ b0 : Nat, ∀ rest : List Nat, (b0 :: rest).length ≠ 5 + b0 →
        decodeOk (Record.UnmarshalBinary (b0 :: rest)) = false) ∧
      (∀ l : List Nat, ∀ ck : Nat, ck ≠ Checksum l →
        decodeOk (Record.UnmarshalBinary (l ++ [ck])) = false) := by
  refine ⟨by decide, ?_, ?_, ?_, ?_⟩
  · intro b0 b1 b2 t rest ht
    rw [unmarshal_invalid_type b0 b1 b2 t rest ht]
    rfl
  · intro b0 b1 b2 t rest hext hb0
    cases hres : Record.UnmarshalBinary (b0 :: b1 :: b2 :: t :: rest) with
    | error e => rfl
    | ok r =>
      exfalso
      simp only [Record.UnmarshalBinary] at hres
      rcases hext with rfl | rfl
      · rw [if_neg (by simp [NumRecordTypes, RecordTypeExtSegAddr]),
          if_pos ⟨rfl, hb0⟩] at hres
        cases hres
      · rw [if_neg (by simp [NumRecordTypes, RecordTypeExtLinAddr]),
          if_neg (by simp [RecordTypeExtSegAddr, RecordTypeExtLinAddr]),
          if_pos ⟨rfl, hb0⟩] at hres
        cases hres
  · intro b0 rest hne
    cases hres : Record.UnmarshalBinary (b0 :: rest) with
    | error e => rfl
    | ok r =>
      exfalso
      have hshape := unmarshal_ok_shape (b0 :: rest) r hres
      have hb0 : b0 = r.byteCount := by
        have := hshape.2.1
        simpa using this
      exact hne (by rw [hshape.1, hb0])
  · intro l ck hne
    cases hres : Record.UnmarshalBinary (l ++ [ck]) with
    | error e => rfl
    | ok r =>
      exfalso
      have hshape := unmarshal_ok_shape (l ++ [ck]) r hres
      have hck : ck = r.checksum := by
        have := hshape.2.2.2
        rw [List.getLast?_concat] at this
        simpa using this
      have hdl : (l ++ [ck]).dropLast = l := by simp
      exact hne (by rw [hck, hshape.2.2.1, hdl])

theorem C6_witness :
    decodeOk (Record.UnmarshalBinary []) = false ∧
      (NumRecordTypes ≤ 6 ∧
        decodeOk (Record.UnmarshalBinary [2, 0, 0, 6, 18, 0, 234]) = false) ∧
      ((2 = RecordTypeExtSegAddr ∨ 2 = RecordTypeExtLinAddr) ∧ (4 : Nat) ≠ 2 ∧
        decodeOk (Record.UnmarshalBinary [4, 0, 0, 2, 18, 0, 234]) = false) ∧
      (([3, 0, 0, 0, 0] : List Nat).length ≠ 5 + 3 ∧
        decodeOk (Record.UnmarshalBinary [3, 0, 0, 0, 0]) = false) ∧
      ((0 : Nat) ≠ Checksum [0, 0, 0, 1] ∧
        decodeOk (Record.UnmarshalBinary ([0, 0, 0, 1] ++ [0])) = false) :=
  ⟨C6_unmarshal_error_conditions.1,
    ⟨by decide, C6_unmarshal_error_conditions.2.1 2 0 0 6 [18, 0, 234] (by decide)⟩,
    ⟨Or.inl rfl, by decide,
      C6_unmarshal_error_conditions.2.2.1 4 0 0 2 [18, 0, 234] (Or.inl rfl) (by decide)⟩,
    ⟨by decide, C6_unmarshal_error_conditions.2.2.2.1 3 [0, 0, 0, 0] (by decide)⟩,
    ⟨by decide, C6_unmarshal_error_conditions.2.2.2.2 [0, 0, 0, 1] 0 (by decide)⟩⟩

/-! ## Claim C7 -/

/-- C7 counterexample.  The claim says structural underflow of any field
(including the data field) is checked first, so that an input whose
record-type byte is ≥ 6 but whose declared data bytes are missing yields the
generic underflow decode error rather than the invalid-record-type error.
On the input `[1, 0, 0, 6]` (byte count 1, record type 6, data missing) the
code returns the distinguishable invalid-record-type error: the type check
runs before the data field is read. -/
theorem C7_counterexample :
    Record.UnmarshalBinary [1, 0, 0, 6] = .error (.invalidRecordType 6) ∧
      decodeUnderflow (Record.UnmarshalBinary [1, 0, 0, 6]) = false :=
  ⟨rfl, rfl⟩

/-- C7 as amended.  Underflow while reading the byte-count, address or
record-type fields is detected first (any input shorter than four bytes
yields a generic underflow decode error), but the record-type validity check
precedes the data-field read: any input of at least four bytes whose fourth
byte is ≥ 6 yields the distinguishable invalid-record-type error, even when
its declared data bytes are missing. -/
theorem C7_amended :
    (∀ l : List Nat, l.length < 4 →
      decodeUnderflow (Record.UnmarshalBinary l) = true) ∧
      (∀ b0 b1 b2 t : Nat, ∀ rest : List Nat, NumRecordTypes ≤ t →
        Record.UnmarshalBinary (b0 :: b1 :: b2 :: t :: rest) =
          .error (.invalidRecordType t)) := by
  constructor
  · intro l hl
    match l with
    | [] => rfl
    | [_] => rfl
    | [_, _] => rfl
    | [_, _, _] => rfl
    | _ :: _ :: _ :: _ :: _ =>
      simp at hl
      omega
  · exact unmarshal_invalid_type

theorem C7_witness :
    (([0, 0] : List Nat).length < 4 ∧
      decodeUnderflow (Record.UnmarshalBinary [0, 0]) = true) ∧
      (NumRecordTypes ≤ 7 ∧
        Record.UnmarshalBinary [1, 0, 0, 7] = .error (.invalidRecordType 7)) :=
  ⟨⟨by decide, C7_amended.1 [0, 0] (by decide)⟩,
    ⟨by decide, C7_amended.2 1 0 0 7 [] (by decide)⟩⟩

/-! ## Claim C10 -/

/-- C10.  `MarshalBinary` mutates exactly one field of the record it encodes:
whenever it encodes (nil error), the checksum field is overwritten with the
checksum of the serialized byte-count/address/type/data bytes — a value
independent of the field's prior contents, as `marshalBody` never reads the
checksum field — while byteCount, address, recordType and data are always
left unchanged; on the early-error paths the record is untouched entirely. -/
theorem C10_marshal_frame (x : Record) :
    x.MarshalBinary.record.byteCount = x.byteCount ∧
      x.MarshalBinary.record.address = x.address ∧
      x.MarshalBinary.record.recordType = x.recordType ∧
      x.MarshalBinary.record.data = x.data ∧
      (x.MarshalBinary.err = none →
        x.MarshalBinary.record.checksum = Checksum (marshalBody x)) ∧
      (x.MarshalBinary.err ≠ none → x.MarshalBinary.record = x) ∧
      (∀ c : Nat, marshalBody { x with checksum := c } = marshalBody x) := by
  unfold Record.MarshalBinary
  split_ifs <;> simp [marshalBody]

/-! ## Scanner lemmas -/

theorem List.getD_lt_of_forall :
    ∀ (l : List Nat) (i : Nat), (∀ b ∈ l, b < 256) → l.getD i 0 < 256
  | [], i, _ => by
    have h0 : ([] : List Nat).getD i 0 = 0 := rfl
    rw [h0]
    omega
  | a :: t, 0, h => h a (List.mem_cons_self a t)
  | a :: t, i + 1, h =>
    List.getD_lt_of_forall t i (fun b hb => h b (List.mem_cons_of_mem a hb))

theorem unmarshal_ok_fields (bc a1 a2 t : Nat) (rest : List Nat) (r : Record)
    (h : Record.UnmarshalBinary (bc :: a1 :: a2 :: t :: rest) = .ok r) :
    r.byteCount = bc ∧ r.address = (a1 <<< 8) ||| a2 ∧ r.recordType = t ∧
      r.data = rest.take bc := by
  simp only [Record.UnmarshalBinary] at h
  split_ifs at h with h1 h2 h3 h4
  split at h
  · cases h
  · split_ifs at h with h5 h6
    injection h with h
    subst h
    exact ⟨rfl, rfl, rfl, rfl⟩

theorem unmarshal_ok_bounds (l : List Nat) (r : Record)
    (h : Record.UnmarshalBinary l = .ok r) (hl : ∀ b ∈ l, b < 256) :
    r.address < 65536 ∧ (∀ b ∈ r.data, b < 256) ∧ r.recordType < NumRecordTypes ∧
      ((r.recordType = RecordTypeExtSegAddr ∨ r.recordType = RecordTypeExtLinAddr) →
        r.data.length = 2) := by
  match l with
  | [] => simp [Record.UnmarshalBinary] at h
  | [_] => simp [Record.UnmarshalBinary] at h
  | [_, _] => simp [Record.UnmarshalBinary] at h
  | [_, _, _] => simp [Record.UnmarshalBinary] at h
  | bc :: a1 :: a2 :: t :: rest =>
    obtain ⟨hbc, haddr, ht, hdata⟩ := unmarshal_ok_fields bc a1 a2 t rest r h
    simp only [Record.UnmarshalBinary] at h
    split_ifs at h with h1 h2 h3 h4
    have ha1 : a1 < 256 := hl a1 (by simp)
    have ha2 : a2 < 256 := hl a2 (by simp)
    refine ⟨?_, ?_, by omega, ?_⟩
    · rw [haddr, shiftLeft_lor_eq a1 (show a2 < 2 ^ 8 by omega)]
      omega
    · intro b hb
      rw [hdata] at hb
      exact hl b (by
        have := List.take_subset bc rest hb
        simp [this])
    · intro hext
      rw [hdata, List.length_take]
      rw [ht] at hext
      rcases hext with rfl | rfl
      · have : bc = 2 := by
          by_contra hne
          exact h2 ⟨rfl, hne⟩
        omega
      · have : bc = 2 := by
          by_contra hne
          exact h3 ⟨rfl, hne⟩
        omega

/-- A successfully decoded line can only move the bases to a pair in which
one of the two is zero and both respect their maximal magnitudes
(`0xFFFF << 4` and `0xFFFF << 16`). -/
theorem lineStep_next_bounds (line : List Nat) (sb lb sb' lb' : Nat)
    (h : lineStep line sb lb = .next sb' lb')
    (hmutex : sb = 0 ∨ lb = 0) (hsb : sb ≤ 0xFFFF0) (hlb : lb ≤ 0xFFFF0000) :
    (sb' = 0 ∨ lb' = 0) ∧ sb' ≤ 0xFFFF0 ∧ lb' ≤ 0xFFFF0000 := by
  cases line with
  | nil => simp [lineStep] at h
  | cons c hx =>
    by_cases hc : c ≠ StartCode
    · simp [lineStep, hc] at h
    · cases hdec : hexDecode hx with
      | none => simp [lineStep, hc, hdec] at h
      | some bytes =>
        cases hrec : Record.UnmarshalBinary bytes with
        | error e => simp [lineStep, hc, hdec, hrec] at h
        | ok r =>
          simp only [lineStep, hc, hdec, hrec, if_neg, ite_not] at h
          have hxb := hexDecode_bytes_lt hx bytes hdec
          have hb := unmarshal_ok_bounds bytes r hrec hxb
          have hd0 : r.data.getD 0 0 < 256 := List.getD_lt_of_forall _ _ hb.2.1
          have hd1 : r.data.getD 1 0 < 256 := List.getD_lt_of_forall _ _ hb.2.1
          have hv : ((r.data.getD 0 0) <<< 8) ||| r.data.getD 1 0 =
              (r.data.getD 0 0) * 2 ^ 8 + r.data.getD 1 0 :=
            shiftLeft_lor_eq _ (by omega)
          by_cases ht0 : r.recordType = RecordTypeData
          · rw [if_pos ht0] at h
            simp at h
          · rw [if_neg ht0] at h
            by_cases ht1 : r.recordType = RecordTypeEOF
            · rw [if_pos ht1] at h
              simp at h
            · rw [if_neg ht1] at h
              by_cases ht2 : r.recordType = RecordTypeExtSegAddr
              · rw [if_pos ht2] at h
                injection h with h1 h2
                subst h1
                subst h2
                rw [Nat.shiftLeft_eq, hv]
                refine ⟨Or.inr rfl, by omega, by omega⟩
              · rw [if_neg ht2] at h
                by_cases ht4 : r.recordType = RecordTypeExtLinAddr
                · rw [if_pos ht4] at h
                  injection h with h1 h2
                  subst h1
                  subst h2
                  rw [Nat.shiftLeft_eq, hv]
                  refine ⟨Or.inl rfl, by omega, by omega⟩
                · rw [if_neg ht4] at h
                  injection h with h1 h2
                  subst h1
                  subst h2
                  exact ⟨hmutex, hsb, hlb⟩

theorem scanLoop_bases_inv (lines : List (List Nat)) :
    ∀ (sb lb : Nat) (sg : Segment),
    (sb = 0 ∨ lb = 0) → sb ≤ 0xFFFF0 → lb ≤ 0xFFFF0000 →
    (((scanLoop lines sb lb sg).2.extendedSegmentedAddressBase = 0 ∨
        (scanLoop lines sb lb sg).2.extendedLinearAddressBase = 0) ∧
      (scanLoop lines sb lb sg).2.extendedSegmentedAddressBase ≤ 0xFFFF0 ∧
      (scanLoop lines sb lb sg).2.extendedLinearAddressBase ≤ 0xFFFF0000) := by
  induction lines with
  | nil =>
    intro sb lb sg hmutex hsb hlb
    exact ⟨hmutex, hsb, hlb⟩
  | cons L rest ih =>
    intro sb lb sg hmutex hsb hlb
    simp only [scanLoop]
    cases hstep : lineStep L sb lb with
    | skip => exact ih sb lb sg hmutex hsb hlb
    | fatal e => exact ⟨hmutex, hsb, hlb⟩
    | emit s => exact ⟨hmutex, hsb, hlb⟩
    | stop => exact ⟨hmutex, hsb, hlb⟩
    | next sb' lb' =>
      obtain ⟨hm', hs', hl'⟩ := lineStep_next_bounds L sb lb sb' lb' hstep hmutex hsb hlb
      exact ih sb' lb' sg hm' hs' hl'

/-- The strengthened state invariant: reachable scanner states keep the two
bases mutually exclusive and within the ranges an extension record can
produce. -/
theorem Reachable_bases_inv (s : ScanState) (h : Reachable s) :
    (s.extendedSegmentedAddressBase = 0 ∨ s.extendedLinearAddressBase = 0) ∧
      s.extendedSegmentedAddressBase ≤ 0xFFFF0 ∧
      s.extendedLinearAddressBase ≤ 0xFFFF0000 := by
  induction h with
  | init lines => exact ⟨Or.inl rfl, by simp [NewScanner], by simp [NewScanner]⟩
  | step s hs ih =>
    unfold scan
    split
    · exact ih
    · exact scanLoop_bases_inv s.lines _ _ s.segment ih.1 ih.2.1 ih.2.2

/-! ## Claim C8 -/

/-- C8.  In every scanner state reachable from a freshly constructed scanner
by any sequence of `Scan` calls on any input, at most one of the two
address-base fields is nonzero: both start at zero and every operation that
sets one base clears the other. -/
theorem C8_base_mutual_exclusion (s : ScanState) (h : Reachable s) :
    s.extendedSegmentedAddressBase = 0 ∨ s.extendedLinearAddressBase = 0 :=
  (Reachable_bases_inv s h).1

theorem C8_witness :
    (NewScanner []).extendedSegmentedAddressBase = 0 ∨
      (NewScanner []).extendedLinearAddressBase = 0 :=
  C8_base_mutual_exclusion (NewScanner []) (Reachable.init [])

/-! ## Claim C3 -/

/-- C3.  The scanner's per-record step, for a line carrying a successfully
decoded record, in any state whose bases satisfy the reachable-state
invariant (mutual exclusion and magnitude bounds, `Reachable_bases_inv`):
an ExtSegAddr record sets the segmented base to `(data[0]<<8 | data[1]) << 4`
and clears the linear base; an ExtLinAddr record clears the segmented base
and sets the linear base to `(data[0]<<8 | data[1]) << 16`; and a Data record
returns true and emits a segment whose absolute address is (segmentedBase if
nonzero, else linearBase if nonzero, else 0) plus the record's 16-bit
address (no `uint32` wrap-around is possible within these bounds), whose data
equals the record's data, consuming no further lines on that advance. -/
theorem C3_scanner_step (hx bytes : List Nat) (r : Record) (sb lb : Nat)
    (sg : Segment) (rest : List (List Nat))
    (hdec : hexDecode hx = some bytes)
    (hrec : Record.UnmarshalBinary bytes = .ok r)
    (hmutex : sb = 0 ∨ lb = 0) (hsb : sb ≤ 0xFFFF0) (hlb : lb ≤ 0xFFFF0000) :
    (r.recordType = RecordTypeExtSegAddr →
      scan ⟨(StartCode :: hx) :: rest, sb, lb, sg, none⟩ =
        scan ⟨rest, (((r.data.getD 0 0) <<< 8) ||| r.data.getD 1 0) <<< 4, 0, sg, none⟩) ∧
    (r.recordType = RecordTypeExtLinAddr →
      scan ⟨(StartCode :: hx) :: rest, sb, lb, sg, none⟩ =
        scan ⟨rest, 0, (((r.data.getD 0 0) <<< 8) ||| r.data.getD 1 0) <<< 16, sg, none⟩) ∧
    (r.recordType = RecordTypeData →
      scan ⟨(StartCode :: hx) :: rest, sb, lb, sg, none⟩ =
        (true, ⟨rest, sb, lb,
          ⟨(if sb ≠ 0 then sb else if lb ≠ 0 then lb else 0) + r.address, r.data⟩, none⟩)) := by
  have hxb := hexDecode_bytes_lt hx bytes hdec
  have hb := unmarshal_ok_bounds bytes r hrec hxb
  refine ⟨?_, ?_, ?_⟩ <;> intro htype
  · simp [scan, scanLoop, lineStep, hdec, hrec, htype, RecordTypeExtSegAddr,
      RecordTypeData, RecordTypeEOF, StartCode]
  · simp [scan, scanLoop, lineStep, hdec, hrec, htype, RecordTypeExtLinAddr,
      RecordTypeExtSegAddr, RecordTypeData, RecordTypeEOF, StartCode]
  · have haddr := hb.1
    simp [scan, scanLoop, lineStep, hdec, hrec, htype, RecordTypeData, StartCode]
    rcases hmutex with rfl | rfl <;> split_ifs <;> omega

theorem C3_witness :
    (hexDecode (upperHexEncode [2, 0, 0, 2, 18, 0, 234]) = some [2, 0, 0, 2, 18, 0, 234]) ∧
      (Record.UnmarshalBinary [2, 0, 0, 2, 18, 0, 234] =
        .ok (Record.mk 2 0 2 [18, 0] 234)) ∧
      ((Record.mk 2 0 2 [18, 0] 234).recordType = RecordTypeExtSegAddr →
        scan ⟨[StartCode :: upperHexEncode [2, 0, 0, 2, 18, 0, 234]], 0, 0, ⟨0, []⟩, none⟩ =
          scan ⟨[], ((((Record.mk 2 0 2 [18, 0] 234).data.getD 0 0) <<< 8) |||
              (Record.mk 2 0 2 [18, 0] 234).data.getD 1 0) <<< 4, 0, ⟨0, []⟩, none⟩) :=
  ⟨by decide, rfl,
    (C3_scanner_step (upperHexEncode [2, 0, 0, 2, 18, 0, 234]) [2, 0, 0, 2, 18, 0, 234]
      (Record.mk 2 0 2 [18, 0] 234) 0 0 ⟨0, []⟩ []
      (by decide) rfl (Or.inl rfl) (by decide) (by decide)).1⟩

theorem C10_witness :
    (Record.mk 0 0 0 [] 7).MarshalBinary.err = none ∧
      (Record.mk 0 0 0 [] 7).MarshalBinary.record.checksum =
        Checksum (marshalBody (Record.mk 0 0 0 [] 7)) ∧
      (Record.mk 0 0 0 [] 7).MarshalBinary.record.byteCount =
        (Record.mk 0 0 0 [] 7).byteCount ∧
      (Record.mk 0 0 0 [] 7).MarshalBinary.record.data = (Record.mk 0 0 0 [] 7).data := by
  obtain ⟨h1, h2, h3, h4, h5, h6, h7⟩ := C10_marshal_frame (Record.mk 0 0 0 [] 7)
  exact ⟨by decide, h5 (by decide), h1, h4⟩

/-! ## Driver lemmas -/

/-- `runLoop` is `scanLoop` fused with the standard advance loop: one
`scanLoop` call (one advance) followed, on a true return, by driving the
resulting state. -/
theorem runLoop_scanLoop (lines : List (List Nat)) :
    ∀ (sb lb : Nat) (sg : Segment),
    runLoop lines sb lb sg =
      if (scanLoop lines sb lb sg).1 then
        ((scanLoop lines sb lb sg).2.segment :: (runScan (scanLoop lines sb lb sg).2).1,
          (runScan (scanLoop lines sb lb sg).2).2)
      else ([], (scanLoop lines sb lb sg).2) := by
  induction lines with
  | nil => intro sb lb sg; rfl
  | cons L rest ih =>
    intro sb lb sg
    simp only [runLoop, scanLoop]
    cases hstep : lineStep L sb lb with
    | skip => exact ih sb lb sg
    | fatal e => rfl
    | emit s => rfl
    | stop => rfl
    | next sb' lb' => exact ih sb' lb' sg

/-- Driving a scanner equals one `Scan` (advance) call followed, on true, by
driving the post-state: `runScan` is exactly "call `Scan` until it returns
false, collecting `Segment()` after each true return". -/
theorem runScan_step (s : ScanState) :
    runScan s =
      if (scan s).1 then
        ((scan s).2.segment :: (runScan (scan s).2).1, (runScan (scan s).2).2)
      else ([], (scan s).2) := by
  unfold runScan scan
  cases hfe : s.firstErr with
  | some e => rfl
  | none => exact runLoop_scanLoop s.lines _ _ s.segment

/-! ## Claim C4 -/

/-- C4.  A line which neither fails nor is an EOF record is one whose
`lineStep` outcome (for all base values) is never `fatal` and never `stop`.
First conjunct: driving a scanner over a stream of such lines — the line
source is exhausted without an EOF record having been decoded and without a
fatal error — leaves the sticky error set to the "unexpected EOF" error,
which is non-nil status (distinct from the nil error of normal termination);
the final advance necessarily returned false, as `runScan` only stops on a
false return (`runScan_step`).  Second conjunct: for a stream whose lines up
to an EOF-record line are all of the first kind, driving stops at the EOF
record with a nil error (successful termination). -/
theorem C4_missing_eof_is_error :
    (∀ (lines : List (List Nat)) (sb lb : Nat) (sg : Segment),
      (∀ L ∈ lines, ∀ a b : Nat,
        (∀ e, lineStep L a b ≠ .fatal e) ∧ lineStep L a b ≠ .stop) →
      (runScan ⟨lines, sb, lb, sg, none⟩).2.Err = some .unexpectedEOF) ∧
    (∀ (pre : List (List Nat))
        (eofLine : List Nat) (post : List (List Nat)) (sb lb : Nat) (sg : Segment),
      (∀ L ∈ pre, ∀ a b : Nat,
        (∀ e, lineStep L a b ≠ .fatal e) ∧ lineStep L a b ≠ .stop) →
      (∀ a b : Nat, lineStep eofLine a b = .stop) →
      (runScan ⟨pre ++ eofLine :: post, sb, lb, sg, none⟩).2.Err = none) := by
  constructor
  · intro lines
    induction lines with
    | nil => intro sb lb sg hgood; rfl
    | cons L rest ih =>
      intro sb lb sg hgood
      have hL := hgood L (List.mem_cons_self L rest)
      have hrest : ∀ L' ∈ rest, ∀ a b : Nat,
          (∀ e, lineStep L' a b ≠ .fatal e) ∧ lineStep L' a b ≠ .stop :=
        fun L' hm => hgood L' (List.mem_cons_of_mem L hm)
      show (runLoop (L :: rest) sb lb sg).2.Err = some .unexpectedEOF
      simp only [runLoop]
      cases hstep : lineStep L sb lb with
      | skip => exact ih sb lb sg hrest
      | fatal e => exact absurd hstep ((hL sb lb).1 e)
      | emit s => exact ih sb lb s hrest
      | stop => exact absurd hstep (hL sb lb).2
      | next sb' lb' => exact ih sb' lb' sg hrest
  · intro pre
    induction pre with
    | nil =>
      intro eofLine post sb lb sg hgood heof
      show (runLoop (eofLine :: post) sb lb sg).2.Err = none
      simp only [runLoop, heof sb lb]
      rfl
    | cons L pre' ih =>
      intro eofLine post sb lb sg hgood heof
      have hL := hgood L (List.mem_cons_self L pre')
      have hpre' : ∀ L' ∈ pre', ∀ a b : Nat,
          (∀ e, lineStep L' a b ≠ .fatal e) ∧ lineStep L' a b ≠ .stop :=
        fun L' hm => hgood L' (List.mem_cons_of_mem L hm)
      show (runLoop ((L :: pre') ++ eofLine :: post) sb lb sg).2.Err = none
      simp only [List.cons_append, runLoop]
      cases hstep : lineStep L sb lb with
      | skip => exact ih eofLine post sb lb sg hpre' heof
      | fatal e => exact absurd hstep ((hL sb lb).1 e)
      | emit s => exact ih eofLine post sb lb s hpre' heof
      | stop => exact absurd hstep (hL sb lb).2
      | next sb' lb' => exact ih eofLine post sb' lb' sg hpre' heof

theorem C4_witness :
    (runScan ⟨[], 0, 0, ⟨0, []⟩, none⟩).2.Err = some .unexpectedEOF ∧
      (runScan ⟨[] ++ (StartCode :: upperHexEncode [0, 0, 0, 1, 255]) :: [],
        0, 0, ⟨0, []⟩, none⟩).2.Err = none :=
  ⟨C4_missing_eof_is_error.1 [] 0 0 ⟨0, []⟩ (by simp),
    C4_missing_eof_is_error.2 [] (StartCode :: upperHexEncode [0, 0, 0, 1, 255]) []
      0 0 ⟨0, []⟩ (by simp) (fun _ _ => rfl)⟩

/-! ## Claim C9 -/

/-- C9 counterexample.  The claim quantifies over any sequence of advance
calls.  After `Scan` returns false on the EOF record the sticky error is
still nil, so a further `Scan` call resumes the line loop and reads the
records after the EOF record: on the stream `[":00000001FF", ":0000000000"]`
(an EOF record followed by a Data record) the second advance returns true and
emits a segment, while on the stream truncated just after the EOF record the
second advance returns false — so the emitted segments differ between the
full and the truncated stream. -/
theorem C9_counterexample :
    (scan (scan (NewScanner [StartCode :: upperHexEncode [0, 0, 0, 1, 255],
        StartCode :: upperHexEncode [0, 0, 0, 0, 0]])).2).1 = true ∧
      (scan (scan (NewScanner [StartCode :: upperHexEncode [0, 0, 0, 1, 255]])).2).1 = false :=
  ⟨rfl, rfl⟩

theorem runLoop_truncation (post : List (List Nat)) (eofLine : List Nat)
    (heof : ∀ a b : Nat, lineStep eofLine a b = .stop) :
    ∀ (pre : List (List Nat)) (sb lb : Nat) (sg : Segment),
    (runLoop (pre ++ eofLine :: post) sb lb sg).1 =
        (runLoop (pre ++ [eofLine]) sb lb sg).1 ∧
      (runLoop (pre ++ eofLine :: post) sb lb sg).2.firstErr =
        (runLoop (pre ++ [eofLine]) sb lb sg).2.firstErr := by
  intro pre
  induction pre with
  | nil =>
    intro sb lb sg
    simp only [List.nil_append, runLoop, heof sb lb]
    constructor <;> trivial
  | cons L pre' ih =>
    intro sb lb sg
    simp only [List.cons_append, runLoop]
    cases hstep : lineStep L sb lb with
    | skip => exact ih sb lb sg
    | fatal e => exact ⟨rfl, rfl⟩
    | emit s =>
      obtain ⟨h1, h2⟩ := ih sb lb s
      constructor
      · show s :: (runLoop (pre' ++ eofLine :: post) sb lb s).1 =
          s :: (runLoop (pre' ++ [eofLine]) sb lb s).1
        rw [h1]
      · show (runLoop (pre' ++ eofLine :: post) sb lb s).2.firstErr =
          (runLoop (pre' ++ [eofLine]) sb lb s).2.firstErr
        exact h2
    | stop => exact ⟨rfl, rfl⟩
    | next sb' lb' => exact ih sb' lb' sg

/-- C9 as amended.  Under the standard iteration pattern — advance calls
cease at the first false return, which is what `runScan` implements
(`runScan_step`) — records after the first EOF record are never read: the
segments emitted and the final error status for a stream are identical to
those for the same stream truncated just after the EOF record. -/
theorem C9_truncation_after_eof (pre post : List (List Nat)) (eofLine : List Nat)
    (heof : ∀ a b : Nat, lineStep eofLine a b = .stop) (sb lb : Nat) (sg : Segment) :
    (runScan ⟨pre ++ eofLine :: post, sb, lb, sg, none⟩).1 =
        (runScan ⟨pre ++ [eofLine], sb, lb, sg, none⟩).1 ∧
      (runScan ⟨pre ++ eofLine :: post, sb, lb, sg, none⟩).2.Err =
        (runScan ⟨pre ++ [eofLine], sb, lb, sg, none⟩).2.Err :=
  runLoop_truncation post eofLine heof pre sb lb sg

theorem C9_witness :
    (runScan ⟨[] ++ (StartCode :: upperHexEncode [0, 0, 0, 1, 255]) ::
        [StartCode :: upperHexEncode [0, 0, 0, 0, 0]], 0, 0, ⟨0, []⟩, none⟩).1 =
      (runScan ⟨[] ++ [StartCode :: upperHexEncode [0, 0, 0, 1, 255]],
        0, 0, ⟨0, []⟩, none⟩).1 :=
  (C9_truncation_after_eof [] [StartCode :: upperHexEncode [0, 0, 0, 0, 0]]
    (StartCode :: upperHexEncode [0, 0, 0, 1, 255]) (fun _ _ => rfl) 0 0 ⟨0, []⟩).1

/-! ## Writer lemmas -/

theorem NewRecord_fields (t a : Nat) (d : List Nat) (ht : t < NumRecordTypes)
    (he2 : t = RecordTypeExtSegAddr → d.length % 256 = 2)
    (he4 : t = RecordTypeExtLinAddr → d.length % 256 = 2) :
    NewRecord t a d =
      ⟨d.length % 256, a, t, d,
        Checksum (marshalBody ⟨d.length % 256, a, t, d, 0⟩)⟩ := by
  unfold NewRecord
  rw [MarshalBinary_ok _ ht he2 he4]

theorem NewRecord_marshal (t a : Nat) (d : List Nat) (ht : t < NumRecordTypes)
    (he2 : t = RecordTypeExtSegAddr → d.length % 256 = 2)
    (he4 : t = RecordTypeExtLinAddr → d.length % 256 = 2) :
    (NewRecord t a d).MarshalBinary =
      ⟨⟨d.length % 256, a, t, d, Checksum (marshalBody ⟨d.length % 256, a, t, d, 0⟩)⟩,
        marshalBody ⟨d.length % 256, a, t, d, 0⟩ ++
          [Checksum (marshalBody ⟨d.length % 256, a, t, d, 0⟩)], none⟩ := by
  rw [NewRecord_fields t a d ht he2 he4]
  rw [MarshalBinary_ok _ ht he2 he4]
  simp [marshalBody]

theorem recordLine_ok (t a : Nat) (d : List Nat) (ht : t < NumRecordTypes)
    (he2 : t = RecordTypeExtSegAddr → d.length % 256 = 2)
    (he4 : t = RecordTypeExtLinAddr → d.length % 256 = 2) :
    recordLine t a d =
      .ok (StartCode :: upperHexEncode (NewRecord t a d).MarshalBinary.data) := by
  unfold recordLine
  rw [NewRecord_marshal t a d ht he2 he4]

/-- The writer never actually fails: every record it builds marshals with a
nil error, so `SegmentSlice.Write` always returns the lines of
`writeLines`. -/
theorem writeSegments_eq_writeLines :
    ∀ (segs : List Segment) (base : Nat),
    writeSegments segs base = .ok (writeLines segs base)
  | [], base => rfl
  | seg :: rest, base => by
    have hdata := recordLine_ok RecordTypeData (seg.address &&& 0xFFFF) seg.data
      (by decide) (fun h => absurd h (by decide)) (fun h => absurd h (by decide))
    have hext := recordLine_ok RecordTypeExtLinAddr 0
      [((seg.address >>> 16) >>> 8) % 256, (seg.address >>> 16) % 256]
      (by decide) (fun h => absurd h (by decide)) (fun _ => rfl)
    have hih := writeSegments_eq_writeLines rest
    by_cases hbase : seg.address >>> 16 ≠ base
    · simp only [writeSegments, writeLines, if_pos hbase, hdata, hext,
        hih (seg.address >>> 16)]
    · simp only [writeSegments, writeLines, if_neg hbase, hdata, hih base]

/-- Scanning the line the writer emits for the EOF record stops the scan. -/
theorem lineStep_eofLine (sb lb : Nat) :
    lineStep (StartCode :: upperHexEncode EOFRecord.MarshalBinary.data) sb lb = .stop :=
  rfl

/-- Scanning the line the writer emits for an `ExtLinAddr` record with base
`b < 2^16` clears the segmented base and sets the linear base to
`b <<< 16`. -/
theorem lineStep_extLinLine (b sb lb : Nat) (hb : b < 65536) :
    lineStep (StartCode :: upperHexEncode (NewRecord RecordTypeExtLinAddr 0
        [(b >>> 8) % 256, b % 256]).MarshalBinary.data) sb lb =
      .next 0 (b <<< 16) := by
  have ht : RecordTypeExtLinAddr < NumRecordTypes := by norm_num [RecordTypeExtLinAddr, NumRecordTypes]
  have he2 : RecordTypeExtLinAddr = RecordTypeExtSegAddr →
      ([(b >>> 8) % 256, b % 256] : List Nat).length % 256 = 2 :=
    fun h => absurd h (by norm_num [RecordTypeExtLinAddr, RecordTypeExtSegAddr])
  have he4 : RecordTypeExtLinAddr = RecordTypeExtLinAddr →
      ([(b >>> 8) % 256, b % 256] : List Nat).length % 256 = 2 :=
    fun _ => rfl
  have hm := NewRecord_marshal RecordTypeExtLinAddr 0 [(b >>> 8) % 256, b % 256] ht he2 he4
  have hx := NewRecord_fields RecordTypeExtLinAddr 0 [(b >>> 8) % 256, b % 256] ht he2 he4
  have hwf1 : (NewRecord RecordTypeExtLinAddr 0
      [(b >>> 8) % 256, b % 256]).byteCount < 256 := by rw [hx]; norm_num
  have hwf2 : (NewRecord RecordTypeExtLinAddr 0
      [(b >>> 8) % 256, b % 256]).recordType < 256 := by
    rw [hx]; norm_num [RecordTypeExtLinAddr]
  have hwf3 : ∀ x ∈ (NewRecord RecordTypeExtLinAddr 0
      [(b >>> 8) % 256, b % 256]).data, x < 256 := by
    rw [hx]
    intro x hx2
    have : x = (b >>> 8) % 256 ∨ x = b % 256 := by simpa using hx2
    rcases this with rfl | rfl <;> exact Nat.mod_lt _ (by norm_num)
  have ht6 : (NewRecord RecordTypeExtLinAddr 0
      [(b >>> 8) % 256, b % 256]).recordType < NumRecordTypes := by
    rw [hx]; norm_num [RecordTypeExtLinAddr, NumRecordTypes]
  have hne2 : (NewRecord RecordTypeExtLinAddr 0
      [(b >>> 8) % 256, b % 256]).recordType = RecordTypeExtSegAddr →
      (NewRecord RecordTypeExtLinAddr 0 [(b >>> 8) % 256, b % 256]).byteCount = 2 := by
    rw [hx]
    intro h
    exact absurd h (by norm_num [RecordTypeExtLinAddr, RecordTypeExtSegAddr])
  have hne4 : (NewRecord RecordTypeExtLinAddr 0
      [(b >>> 8) % 256, b % 256]).recordType = RecordTypeExtLinAddr →
      (NewRecord RecordTypeExtLinAddr 0 [(b >>> 8) % 256, b % 256]).byteCount = 2 :=
    fun _ => by rw [hx]; rfl
  have hbytes := marshal_data_bytes_lt _ hwf1 hwf2 hwf3 ht6 hne2 hne4
  have hdec := hexDecode_upperHexEncode _ hbytes
  have hlen : (NewRecord RecordTypeExtLinAddr 0
      [(b >>> 8) % 256, b % 256]).data.length =
        (NewRecord RecordTypeExtLinAddr 0 [(b >>> 8) % 256, b % 256]).byteCount := by
    rw [hx]; rfl
  have haddr2 : (NewRecord RecordTypeExtLinAddr 0
      [(b >>> 8) % 256, b % 256]).address < 65536 := by rw [hx]; norm_num
  have hum := unmarshal_marshal (NewRecord RecordTypeExtLinAddr 0 [(b >>> 8) % 256, b % 256])
    ht6 hne2 hne4 hlen haddr2
  simp only [lineStep, hdec, hum]
  rw [hm]
  have hb8 : b >>> 8 = b / 256 := by rw [Nat.shiftRight_eq_div_pow]
  have hd0 : (b >>> 8) % 256 = b / 256 := by rw [hb8, Nat.mod_eq_of_lt (by omega)]
  have hrec : ((((b >>> 8) % 256) <<< 8) ||| b % 256) = b := by
    rw [shiftLeft_lor_eq _ (show b % 256 < 2 ^ 8 from Nat.mod_lt _ (by norm_num)), hd0]
    omega
  simp [RecordTypeData, RecordTypeEOF, RecordTypeExtSegAddr, RecordTypeExtLinAddr,
    NumRecordTypes, List.getD, hrec]

/-- Scanning the line the writer emits for a segment's Data record, in the
scanner state the preceding written records produce (segmented base zero,
linear base the segment's upper 16 bits shifted left), emits the segment
itself. -/
theorem lineStep_dataLine (seg : Segment) (b : Nat)
    (haddr : seg.address < 2 ^ 32) (hb : b = seg.address >>> 16)
    (hlen : seg.data.length ≤ 255) (hd : ∀ x ∈ seg.data, x < 256) :
    lineStep (StartCode :: upperHexEncode (NewRecord RecordTypeData
        (seg.address &&& 0xFFFF) seg.data).MarshalBinary.data) 0 (b <<< 16) =
      .emit seg := by
  have ht : RecordTypeData < NumRecordTypes := by norm_num [RecordTypeData, NumRecordTypes]
  have he2 : RecordTypeData = RecordTypeExtSegAddr → seg.data.length % 256 = 2 :=
    fun h => absurd h (by norm_num [RecordTypeData, RecordTypeExtSegAddr])
  have he4 : RecordTypeData = RecordTypeExtLinAddr → seg.data.length % 256 = 2 :=
    fun h => absurd h (by norm_num [RecordTypeData, RecordTypeExtLinAddr])
  have hx := NewRecord_fields RecordTypeData (seg.address &&& 0xFFFF) seg.data ht he2 he4
  have hm := NewRecord_marshal RecordTypeData (seg.address &&& 0xFFFF) seg.data ht he2 he4
  have hmask : seg.address &&& 0xFFFF = seg.address % 65536 := by
    have h16 : (0xFFFF : Nat) = 2 ^ 16 - 1 := by norm_num
    rw [h16, and_two_pow_sub_one]
    norm_num
  have haddrlow : seg.address &&& 0xFFFF < 65536 := by omega
  have hwf1 : (NewRecord RecordTypeData (seg.address &&& 0xFFFF) seg.data).byteCount < 256 := by
    rw [hx]
    exact Nat.mod_lt _ (by norm_num)
  have hwf2 : (NewRecord RecordTypeData (seg.address &&& 0xFFFF) seg.data).recordType < 256 := by
    rw [hx]; norm_num [RecordTypeData]
  have hwf3 : ∀ x ∈ (NewRecord RecordTypeData (seg.address &&& 0xFFFF) seg.data).data,
      x < 256 := by
    rw [hx]; exact hd
  have ht6 : (NewRecord RecordTypeData (seg.address &&& 0xFFFF) seg.data).recordType <
      NumRecordTypes := by
    rw [hx]; norm_num [RecordTypeData, NumRecordTypes]
  have hne2 : (NewRecord RecordTypeData (seg.address &&& 0xFFFF) seg.data).recordType =
      RecordTypeExtSegAddr →
      (NewRecord RecordTypeData (seg.address &&& 0xFFFF) seg.data).byteCount = 2 := by
    rw [hx]
    intro h
    exact absurd h (by norm_num [RecordTypeData, RecordTypeExtSegAddr])
  have hne4 : (NewRecord RecordTypeData (seg.address &&& 0xFFFF) seg.data).recordType =
      RecordTypeExtLinAddr →
      (NewRecord RecordTypeData (seg.address &&& 0xFFFF) seg.data).byteCount = 2 := by
    rw [hx]
    intro h
    exact absurd h (by norm_num [RecordTypeData, RecordTypeExtLinAddr])
  have hbytes := marshal_data_bytes_lt _ hwf1 hwf2 hwf3 ht6 hne2 hne4
  have hdec := hexDecode_upperHexEncode _ hbytes
  have hlen2 : (NewRecord RecordTypeData (seg.address &&& 0xFFFF) seg.data).data.length =
      (NewRecord RecordTypeData (seg.address &&& 0xFFFF) seg.data).byteCount := by
    rw [hx]
    show seg.data.length = seg.data.length % 256
    omega
  have hum := unmarshal_marshal (NewRecord RecordTypeData (seg.address &&& 0xFFFF) seg.data)
    ht6 hne2 hne4 hlen2 (by rw [hx]; exact haddrlow)
  simp only [lineStep, hdec, hum]
  rw [hm]
  have haddreq : ((if b <<< 16 ≠ 0 then b <<< 16 else if (0 : Nat) ≠ 0 then 0 else 0) +
      (seg.address &&& 0xFFFF)) % 2 ^ 32 = seg.address := by
    subst hb
    rw [Nat.shiftLeft_eq, Nat.shiftRight_eq_div_pow, hmask]
    split_ifs <;> omega
  show LineOutcome.emit
      { address := ((if b <<< 16 ≠ 0 then b <<< 16 else if (0 : Nat) ≠ 0 then 0 else 0) +
          (seg.address &&& 0xFFFF)) % 2 ^ 32,
        data := seg.data } = .emit seg
  rw [haddreq]

/-- Driving the scanner over the writer's output, starting in the state that
the already-written records produce (segmented base zero, linear base the
carried upper-16-bit base shifted left), recovers exactly the remaining
segments and terminates with a nil error on the EOF record. -/
theorem runLoop_writeLines (segs : List Segment) :
    ∀ (base : Nat) (sg : Segment), base < 65536 →
    (∀ s ∈ segs, s.WFShort) →
    ((runLoop (writeLines segs base) 0 (base <<< 16) sg).1.map
        (fun s => (s.address, s.data)) = segs.map (fun s => (s.address, s.data))) ∧
      (runLoop (writeLines segs base) 0 (base <<< 16) sg).2.firstErr = none := by
  induction segs with
  | nil =>
    intro base sg hbase hwf
    simp only [writeLines, runLoop, lineStep_eofLine]
    constructor <;> trivial
  | cons seg rest ih =>
    intro base sg hbase hwf
    obtain ⟨haddr, hlen, hd⟩ := hwf seg (List.mem_cons_self seg rest)
    have hwfrest : ∀ s ∈ rest, s.WFShort :=
      fun s hs => hwf s (List.mem_cons_of_mem seg hs)
    have hb' : seg.address >>> 16 < 65536 := by
      rw [Nat.shiftRight_eq_div_pow]
      omega
    have hdata := lineStep_dataLine seg (seg.address >>> 16) haddr rfl hlen hd
    by_cases hbdiff : seg.address >>> 16 ≠ base
    · simp only [writeLines, if_pos hbdiff, runLoop,
        lineStep_extLinLine (seg.address >>> 16) 0 (base <<< 16) hb', hdata]
      obtain ⟨ih1, ih2⟩ := ih (seg.address >>> 16) seg hb' hwfrest
      constructor
      · show (seg :: (runLoop (writeLines rest (seg.address >>> 16)) 0
            ((seg.address >>> 16) <<< 16) seg).1).map (fun s => (s.address, s.data)) =
          ((seg :: rest).map (fun s => (s.address, s.data)))
        simp only [List.map_cons]
        rw [ih1]
      · exact ih2
    · have hbeq : seg.address >>> 16 = base := by omega
      rw [hbeq] at hdata
      simp only [writeLines, if_neg hbdiff, runLoop, hdata]
      obtain ⟨ih1, ih2⟩ := ih base seg hbase hwfrest
      constructor
      · show (seg :: (runLoop (writeLines rest base) 0 (base <<< 16) seg).1).map
            (fun s => (s.address, s.data)) =
          ((seg :: rest).map (fun s => (s.address, s.data)))
        simp only [List.map_cons]
        rw [ih1]
      · exact ih2

/-! ## Claim C5 -/

set_option maxRecDepth 2000 in
/-- C5 counterexample.  The claim asserts the write/scan round trip for every
address-sorted collection of segments.  A segment with 256 data bytes is a
legal Go value (`Data` is a byte slice), and the singleton collection holding
it is address-sorted; but `NewRecord` truncates the byte count to
`byte(256) = 0` while `MarshalBinary` still writes all 256 data bytes, so the
written Data record declares zero data bytes and carries 256, the scanner's
record decode fails with a trailing-bytes error, and scanning the produced
text yields no segments at all instead of the original segment. -/
theorem C5_counterexample :
    List.Pairwise (fun s1 s2 => s1.address ≤ s2.address)
        [Segment.mk 0 (List.replicate 256 0)] ∧
      (Segment.mk 0 (List.replicate 256 0)).address < 2 ^ 32 ∧
      (∀ b ∈ (Segment.mk 0 (List.replicate 256 0)).data, b < 256) ∧
      SegmentSlice.Write [Segment.mk 0 (List.replicate 256 0)] =
        .ok (writeLines [Segment.mk 0 (List.replicate 256 0)] 0) ∧
      (runScan (NewScanner (writeLines [Segment.mk 0 (List.replicate 256 0)] 0))).1.map
          (fun s => (s.address, s.data)) = [] ∧
      (runScan (NewScanner (writeLines [Segment.mk 0 (List.replicate 256 0)] 0))).2.Err =
        some (.recordErr (.trailingBytes 256)) ∧
      ([] : List (Nat × List Nat)) ≠
        [Segment.mk 0 (List.replicate 256 0)].map (fun s => (s.address, s.data)) := by
  have ht : RecordTypeData < NumRecordTypes := by norm_num [RecordTypeData, NumRecordTypes]
  have he2 : RecordTypeData = RecordTypeExtSegAddr →
      (List.replicate 256 (0 : Nat)).length % 256 = 2 :=
    fun h => absurd h (by norm_num [RecordTypeData, RecordTypeExtSegAddr])
  have he4 : RecordTypeData = RecordTypeExtLinAddr →
      (List.replicate 256 (0 : Nat)).length % 256 = 2 :=
    fun h => absurd h (by norm_num [RecordTypeData, RecordTypeExtLinAddr])
  have hm := NewRecord_marshal RecordTypeData 0 (List.replicate 256 0) ht he2 he4
  have hlenrep : (List.replicate 256 (0 : Nat)).length = 256 := List.length_replicate 256 0
  have hbody : marshalBody ⟨(List.replicate 256 (0 : Nat)).length % 256, 0, RecordTypeData,
      List.replicate 256 0, 0⟩ = 0 :: 0 :: 0 :: 0 :: List.replicate 256 0 := by
    simp only [marshalBody, hlenrep]
    rfl
  have hsum : (0 :: 0 :: 0 :: 0 :: List.replicate 256 (0 : Nat)).sum = 0 := by
    simp only [List.sum_cons, List.sum_replicate, smul_eq_mul]
  have hck : Checksum (0 :: 0 :: 0 :: 0 :: List.replicate 256 0) = 0 := by
    unfold Checksum
    rw [hsum]
    norm_num
  have hsplit : List.replicate 256 (0 : Nat) = 0 :: List.replicate 255 0 := rfl
  have hdata : (NewRecord RecordTypeData 0 (List.replicate 256 0)).MarshalBinary.data =
      0 :: 0 :: 0 :: 0 :: 0 :: (List.replicate 255 0 ++ [0]) := by
    rw [hm]
    show marshalBody ⟨(List.replicate 256 (0 : Nat)).length % 256, 0, RecordTypeData,
        List.replicate 256 0, 0⟩ ++
      [Checksum (marshalBody ⟨(List.replicate 256 (0 : Nat)).length % 256, 0, RecordTypeData,
        List.replicate 256 0, 0⟩)] = _
    rw [hbody, hck, hsplit]
    simp only [List.cons_append]
  have hbytes : ∀ b ∈ (NewRecord RecordTypeData 0 (List.replicate 256 0)).MarshalBinary.data,
      b < 256 := by
    rw [hdata]
    intro b hb
    simp only [List.mem_cons, List.mem_append] at hb
    rcases hb with rfl | rfl | rfl | rfl | rfl | hb | rfl | h
    · norm_num
    · norm_num
    · norm_num
    · norm_num
    · norm_num
    · rw [List.eq_of_mem_replicate hb]
      norm_num
    · norm_num
    · exact absurd h (List.not_mem_nil b)
  have hdec := hexDecode_upperHexEncode _ hbytes
  have hunm : Record.UnmarshalBinary
      (0 :: 0 :: 0 :: 0 :: 0 :: (List.replicate 255 0 ++ [0])) =
      .error (.trailingBytes 256) := rfl
  have hstep : lineStep (StartCode :: upperHexEncode
      (NewRecord RecordTypeData 0 (List.replicate 256 0)).MarshalBinary.data) 0 0 =
      .fatal (.recordErr (.trailingBytes 256)) := by
    rw [hdata] at hdec
    rw [hdata]
    simp only [lineStep, hdec, hunm]
    simp
  have hwl : writeLines [Segment.mk 0 (List.replicate 256 0)] 0 =
      [StartCode :: upperHexEncode
          (NewRecord RecordTypeData 0 (List.replicate 256 0)).MarshalBinary.data,
        StartCode :: upperHexEncode EOFRecord.MarshalBinary.data] := rfl
  have hrun : runScan (NewScanner (writeLines [Segment.mk 0 (List.replicate 256 0)] 0)) =
      ([], ⟨[StartCode :: upperHexEncode EOFRecord.MarshalBinary.data], 0, 0, ⟨0, []⟩,
        some (.recordErr (.trailingBytes 256))⟩) := by
    rw [hwl]
    show runLoop [StartCode :: upperHexEncode
        (NewRecord RecordTypeData 0 (List.replicate 256 0)).MarshalBinary.data,
      StartCode :: upperHexEncode EOFRecord.MarshalBinary.data] 0 0 ⟨0, []⟩ = _
    simp only [runLoop, hstep]
  refine ⟨?_, ?_, ?_, writeSegments_eq_writeLines _ 0, ?_, ?_, ?_⟩
  · exact List.pairwise_singleton _ _
  · show (0 : Nat) < 2 ^ 32
    norm_num
  · intro b hb
    rw [List.eq_of_mem_replicate hb]
    norm_num
  · rw [hrun]
    rfl
  · rw [hrun]
    rfl
  · exact fun h => List.noConfusion h

/-- C5 as amended.  For every address-sorted collection of segments *whose
data each fits in a single record (at most 255 bytes)* and whose fields are
Go-representable (`Segment.WFShort`), serializing with the collection writer
succeeds and scanning the produced text yields exactly the original segments,
with equal addresses and equal data, in the same order, terminating with a
nil error. -/
theorem C5_write_scan_roundtrip (segs : List Segment)
    (_hsorted : List.Pairwise (fun s1 s2 => s1.address ≤ s2.address) segs)
    (hwf : ∀ s ∈ segs, s.WFShort) :
    SegmentSlice.Write segs = .ok (writeLines segs 0) ∧
      (runScan (NewScanner (writeLines segs 0))).1.map (fun s => (s.address, s.data)) =
        segs.map (fun s => (s.address, s.data)) ∧
      (runScan (NewScanner (writeLines segs 0))).2.Err = none := by
  have h := runLoop_writeLines segs 0 ⟨0, []⟩ (by norm_num) hwf
  exact ⟨writeSegments_eq_writeLines segs 0, h.1, h.2⟩

theorem C5_witness :
    List.Pairwise (fun s1 s2 => s1.address ≤ s2.address)
        [Segment.mk 74565 [171], Segment.mk 4294901760 [1, 2]] ∧
      (∀ s ∈ [Segment.mk 74565 [171], Segment.mk 4294901760 [1, 2]], s.WFShort) ∧
      (SegmentSlice.Write [Segment.mk 74565 [171], Segment.mk 4294901760 [1, 2]] =
          .ok (writeLines [Segment.mk 74565 [171], Segment.mk 4294901760 [1, 2]] 0) ∧
        (runScan (NewScanner (writeLines
            [Segment.mk 74565 [171], Segment.mk 4294901760 [1, 2]] 0))).1.map
              (fun s => (s.address, s.data)) =
          [Segment.mk 74565 [171], Segment.mk 4294901760 [1, 2]].map
            (fun s => (s.address, s.data)) ∧
        (runScan (NewScanner (writeLines
            [Segment.mk 74565 [171], Segment.mk 4294901760 [1, 2]] 0))).2.Err = none) :=
  ⟨by decide, by decide,
    C5_write_scan_roundtrip [Segment.mk 74565 [171], Segment.mk 4294901760 [1, 2]]
      (by decide) (by decide)⟩

end IntelHex
